import Mathlib

/-! ScopedGlobalRef: a scoped owner of one JNI global reference.

Shallow embedding of `litho-flexlayout/src/main/java/jni/ScopedGlobalRef.h`.

* A JNI reference (`jobject`, `jclass`, `jstring`, the array kinds, ...) is a
  pointer-sized word.  It is modelled as a natural number, `NULL` being `0`;
  the class only ever compares references for equality and against `NULL`.
* `jni::getCurrentEnv()->DeleteGlobalRef(r)` is the single external effect.
  The environment is modelled by the record of the calls made so far, oldest
  first.
* Every member function becomes a function on the wrapper (and, when the
  member can reach `DeleteGlobalRef`, on the environment).
* Programs that use several wrappers are modelled by a `World`: a table of
  wrapper objects indexed by identity, plus the environment.
-/

namespace ScopedRef

/-- A JNI reference, as the pointer-sized word the class stores. -/
abbrev jobject := Nat

/-- The null reference. -/
def NULL : jobject := 0

/-- The JNI environment, reduced to the record of `DeleteGlobalRef` calls
(oldest first). -/
structure JNIEnv where
  deleted : List jobject
deriving DecidableEq, Repr

/-- One call `env->DeleteGlobalRef(ref)`: it is appended to the record. -/
def JNIEnv.DeleteGlobalRef (env : JNIEnv) (ref : jobject) : JNIEnv :=
  ⟨env.deleted ++ [ref]⟩

/-- The class `ScopedGlobalRef<T>`: its only data member is `mGlobalRef`.
The structure constructor is the converting constructor
`ScopedGlobalRef(T globalRef) : mGlobalRef(globalRef) {}`. -/
structure ScopedGlobalRef where
  mGlobalRef : jobject
deriving DecidableEq, Repr

namespace ScopedGlobalRef

/-- The constructor `ScopedGlobalRef(T globalRef)`. -/
def construct (globalRef : jobject) : ScopedGlobalRef :=
  ⟨globalRef⟩

/-- The constructor `explicit ScopedGlobalRef() : mGlobalRef(NULL) {}`. -/
def constructDefault : ScopedGlobalRef :=
  ⟨NULL⟩

/-- The member `void reset(T ptr = NULL)`:
```
if (ptr != mGlobalRef) {
  if (mGlobalRef != NULL) { getCurrentEnv()->DeleteGlobalRef(mGlobalRef); }
  mGlobalRef = ptr;
}
```
-/
def reset (self : ScopedGlobalRef) (env : JNIEnv) (ptr : jobject) :
    ScopedGlobalRef × JNIEnv :=
  if ptr ≠ self.mGlobalRef then
    let env1 := if self.mGlobalRef ≠ NULL then env.DeleteGlobalRef self.mGlobalRef else env
    (⟨ptr⟩, env1)
  else
    (self, env)

/-- The member `auto release() -> T`: returns the held reference and stores
`NULL`; it never touches the environment. -/
def release (self : ScopedGlobalRef) : jobject × ScopedGlobalRef :=
  let globalRef := self.mGlobalRef
  (globalRef, ⟨NULL⟩)

/-- The member `auto get() const -> T`. -/
def get (self : ScopedGlobalRef) : jobject :=
  self.mGlobalRef

/-- The member `operator bool() const`: `mGlobalRef != NULL`. -/
def toBool (self : ScopedGlobalRef) : Bool :=
  self.mGlobalRef != NULL

/-- The destructor `~ScopedGlobalRef() { reset(); }`: `reset` with its default
argument `NULL`.  The object is gone afterwards, only the environment
remains. -/
def destroy (self : ScopedGlobalRef) (env : JNIEnv) : JNIEnv :=
  (self.reset env NULL).2

/-- The move constructor `ScopedGlobalRef(ScopedGlobalRef&& s) :
mGlobalRef(s.release())`.  Returns the new object and the source as
`release` left it. -/
def moveConstruct (s : ScopedGlobalRef) : ScopedGlobalRef × ScopedGlobalRef :=
  let r := s.release
  (⟨r.1⟩, r.2)

end ScopedGlobalRef

/-- The factory `make_global_ref(T globalRef)`: `return
ScopedGlobalRef<T>(globalRef);`. -/
def make_global_ref (globalRef : jobject) : ScopedGlobalRef :=
  ScopedGlobalRef.construct globalRef

/-! ## Calls on a single wrapper -/

/-- What a member call hands back to the caller. -/
inductive Ret where
  | unit
  | ref (r : jobject)
  | bool (b : Bool)
deriving DecidableEq, Repr

/-- A call of a public member on one wrapper (destruction apart). -/
inductive Call where
  | reset (ptr : jobject)
  | release
  | get
  | toBool
deriving DecidableEq, Repr

/-- The state a single wrapper can observe or change: itself and the
environment. -/
abbrev St := ScopedGlobalRef × JNIEnv

/-- One member call: the state afterwards and the value returned. -/
def Call.exec : Call → St → St × Ret
  | .reset ptr, (s, env) => (s.reset env ptr, .unit)
  | .release, (s, env) => ((s.release.2, env), .ref s.release.1)
  | .get, (s, env) => ((s, env), .ref s.get)
  | .toBool, (s, env) => ((s, env), .bool s.toBool)

/-- A sequence of member calls, in program order. -/
def run : List Call → St → St
  | [], st => st
  | c :: cs, st => run cs (c.exec st).1

/-- The values returned by a sequence of member calls, in program order. -/
def results : List Call → St → List Ret
  | [], _ => []
  | c :: cs, st => (c.exec st).2 :: results cs (c.exec st).1

/-- The values the wrapper holds along a sequence of calls: before the first
call and after each call. -/
def everHeld : List Call → St → List jobject
  | [], st => [st.1.get]
  | c :: cs, st => st.1.get :: everHeld cs (c.exec st).1

/-- A whole lifetime of one wrapper in a fresh environment: construction from
`init`, the calls, destruction.  The result is the final environment. -/
def lifetime (init : jobject) (calls : List Call) : JNIEnv :=
  let st := run calls (ScopedGlobalRef.construct init, ⟨[]⟩)
  st.1.destroy st.2

/-! ## Programs over several wrappers -/

/-- The wrapper objects of a program, indexed by identity in order of
creation (`none`: already destroyed), and the environment. -/
structure World where
  objs : List (Option ScopedGlobalRef)
  env : JNIEnv
deriving DecidableEq, Repr

/-- The world before any wrapper exists and before any deletion. -/
def World.init : World := ⟨[], ⟨[]⟩⟩

/-- The live wrapper with identity `i`, if there is one. -/
def World.obj (w : World) (i : Nat) : Option ScopedGlobalRef :=
  (w.objs[i]?).join

/-- The reference held by the live wrapper `i`, if there is one. -/
def World.held (w : World) (i : Nat) : Option jobject :=
  (w.obj i).map ScopedGlobalRef.get

/-- The public operations of the class, on wrappers named by identity. -/
inductive Op where
  | construct (globalRef : jobject)
  | constructDefault
  | moveConstruct (s : Nat)
  | moveAssign (dst s : Nat)
  | reset (i : Nat) (ptr : jobject)
  | release (i : Nat)
  | get (i : Nat)
  | toBool (i : Nat)
  | destroy (i : Nat)
deriving DecidableEq, Repr

/-- One operation.  A new wrapper gets the next identity.  An operation on a
wrapper that does not exist or was destroyed has no defined behaviour in C++
and yields `none`.

Move assignment `dst = std::move(s)` is `dst.reset(s.release())`: the
argument `s.release()` is evaluated first, on the source, and `reset` then
runs on the destination as the release left it (the two may be the same
object). -/
def step : Op → World → Option (World × Ret)
  | .construct v, w =>
      some (⟨w.objs ++ [some (ScopedGlobalRef.construct v)], w.env⟩, .unit)
  | .constructDefault, w =>
      some (⟨w.objs ++ [some ScopedGlobalRef.constructDefault], w.env⟩, .unit)
  | .moveConstruct s, w =>
      match w.obj s with
      | none => none
      | some a =>
          some (⟨w.objs.set s (some a.moveConstruct.2) ++ [some a.moveConstruct.1], w.env⟩,
            .unit)
  | .moveAssign dst s, w =>
      match w.obj s with
      | none => none
      | some a =>
          let w1 : World := ⟨w.objs.set s (some a.release.2), w.env⟩
          match w1.obj dst with
          | none => none
          | some b =>
              some (⟨w1.objs.set dst (some (b.reset w1.env a.release.1).1),
                (b.reset w1.env a.release.1).2⟩, .unit)
  | .reset i ptr, w =>
      match w.obj i with
      | none => none
      | some a => some (⟨w.objs.set i (some (a.reset w.env ptr).1), (a.reset w.env ptr).2⟩, .unit)
  | .release i, w =>
      match w.obj i with
      | none => none
      | some a => some (⟨w.objs.set i (some a.release.2), w.env⟩, .ref a.release.1)
  | .get i, w =>
      match w.obj i with
      | none => none
      | some a => some (w, .ref a.get)
  | .toBool i, w =>
      match w.obj i with
      | none => none
      | some a => some (w, .bool a.toBool)
  | .destroy i, w =>
      match w.obj i with
      | none => none
      | some a => some (⟨w.objs.set i none, a.destroy w.env⟩, .unit)

/-- The world after one operation. -/
def stepW (op : Op) (w : World) : Option World :=
  (step op w).map Prod.fst

/-- A program: operations in order; `none` as soon as one is undefined. -/
def runOps : List Op → World → Option World
  | [], w => some w
  | op :: ops, w => (stepW op w).bind (runOps ops)

/-! ## Predicates on lifetimes and programs -/

/-- No `reset` along the calls is handed a non-`NULL` reference that
`DeleteGlobalRef` was already called with earlier. -/
def NoReuse : List Call → St → Prop
  | [], _ => True
  | c :: cs, st =>
      (match c with
        | .reset p => p = NULL ∨ p ∉ st.2.deleted
        | _ => True) ∧ NoReuse cs (c.exec st).1

/-- At most one live wrapper holds any given non-`NULL` reference. -/
def Unique (w : World) : Prop :=
  ∀ i j r, w.held i = some r → w.held j = some r → r ≠ NULL → i = j

/-- The raw reference handed to an operation is not owned elsewhere: a
constructor gets `NULL` or a reference no live wrapper holds, `reset` gets
`NULL` or a reference no other live wrapper holds.  The remaining operations
take no raw reference. -/
def Op.fresh : Op → World → Prop
  | .construct v, w => v = NULL ∨ some (ScopedGlobalRef.mk v) ∉ w.objs
  | .reset i v, w => v = NULL ∨ some (ScopedGlobalRef.mk v) ∉ w.objs.set i none
  | _, _ => True

/-- Every operation of the program is `fresh` in the state it runs in. -/
def FreshRun : List Op → World → Prop
  | [], _ => True
  | op :: ops, w =>
      op.fresh w ∧
        match stepW op w with
        | none => True
        | some w1 => FreshRun ops w1

/-- The factory when the by-value return is not elided: the `return`
expression builds a temporary `ScopedGlobalRef<T>(globalRef)`, the result is
move-constructed from the temporary, and the temporary is destroyed. -/
def make_global_ref_unelided (globalRef : jobject) (env : JNIEnv) :
    ScopedGlobalRef × JNIEnv :=
  let tmp := ScopedGlobalRef.construct globalRef
  let moved := tmp.moveConstruct
  (moved.1, moved.2.destroy env)

/-- The arguments of the `reset` calls of a sequence, in program order. -/
def resetArgs : List Call → List jobject
  | [] => []
  | .reset p :: cs => p :: resetArgs cs
  | _ :: cs => resetArgs cs

/-- The non-`NULL` references a lifetime hands to the wrapper: the
constructor argument and the `reset` arguments. -/
def supplied (init : jobject) (calls : List Call) : List jobject :=
  (init :: resetArgs calls).filter (fun r => r != NULL)

/-- The references returned by the `release` calls of a sequence, in program
order. -/
def released : List Call → St → List jobject
  | [], _ => []
  | .release :: cs, st => st.1.release.1 :: released cs (Call.release.exec st).1
  | c :: cs, st => released cs (c.exec st).1

/-! ## Basic facts about the members -/

open ScopedGlobalRef

theorem reset_holds (a : ScopedGlobalRef) (env : JNIEnv) (ptr : jobject) :
    (a.reset env ptr).1.mGlobalRef = ptr := by
  unfold ScopedGlobalRef.reset
  by_cases hp : ptr = a.mGlobalRef <;> simp [hp]

theorem reset_same (h : jobject) (env : JNIEnv) :
    (ScopedGlobalRef.mk h).reset env h = (⟨h⟩, env) := by
  simp [ScopedGlobalRef.reset]

theorem reset_of_null (p : jobject) (env : JNIEnv) :
    (ScopedGlobalRef.mk NULL).reset env p = (⟨p⟩, env) := by
  unfold ScopedGlobalRef.reset
  by_cases hp : p = NULL <;> simp [hp]

theorem reset_other (h p : jobject) (env : JNIEnv) (hp : p ≠ h) (hh : h ≠ NULL) :
    (ScopedGlobalRef.mk h).reset env p = (⟨p⟩, ⟨env.deleted ++ [h]⟩) := by
  simp [ScopedGlobalRef.reset, hp, hh, JNIEnv.DeleteGlobalRef]

theorem destroy_null (env : JNIEnv) : (ScopedGlobalRef.mk NULL).destroy env = env := by
  simp [ScopedGlobalRef.destroy, reset_same]

theorem destroy_nonnull (h : jobject) (env : JNIEnv) (hh : h ≠ NULL) :
    (ScopedGlobalRef.mk h).destroy env = ⟨env.deleted ++ [h]⟩ := by
  simp [ScopedGlobalRef.destroy, reset_other h NULL env (Ne.symm hh) hh]

theorem run_append (cs ds : List Call) (st : St) :
    run (cs ++ ds) st = run ds (run cs st) := by
  induction cs generalizing st with
  | nil => rfl
  | cons c cs ih => simp [run, ih]

theorem run_replicate_get (n : Nat) (st : St) : run (List.replicate n Call.get) st = st := by
  induction n with
  | zero => rfl
  | succ n ih => simpa [List.replicate_succ, run, Call.exec] using ih

theorem results_replicate_get (n : Nat) (st : St) :
    results (List.replicate n Call.get) st = List.replicate n (Ret.ref st.1.mGlobalRef) := by
  induction n with
  | zero => rfl
  | succ n ih => simpa [List.replicate_succ, results, Call.exec, ScopedGlobalRef.get] using ih

/-! ## The contracts of the members -/

/-- C1: `reset(p)` on a wrapper holding `h`.  When `p` differs from `h` the
wrapper afterwards holds `p`, and the record of deletion calls grows by
exactly the one call `DeleteGlobalRef(h)` if `h` is not `NULL` and does not
change if `h` is `NULL`.  When `p` equals `h` neither the wrapper nor the
record changes. -/
theorem reset_contract (h p : jobject) (env : JNIEnv) :
    (p ≠ h → h ≠ NULL →
      (ScopedGlobalRef.mk h).reset env p = (⟨p⟩, ⟨env.deleted ++ [h]⟩)) ∧
    (p ≠ h → h = NULL → (ScopedGlobalRef.mk h).reset env p = (⟨p⟩, env)) ∧
    (p = h → (ScopedGlobalRef.mk h).reset env p = (⟨h⟩, env)) := by
  refine ⟨fun hp hh => reset_other h p env hp hh, fun _ hh => ?_, fun hp => ?_⟩
  · subst hh; exact reset_of_null p env
  · subst hp; exact reset_same p env

/-- C2: destruction of a wrapper holding `h` changes the record of deletion
calls if and only if `h` is not `NULL`; when `h` is not `NULL` the record
grows by exactly the one call `DeleteGlobalRef(h)`.  A wrapper constructed
with a non-`NULL` `h` and destroyed right away leaves the record `[h]`, one
constructed with `NULL` leaves it empty. -/
theorem destroy_contract (h : jobject) (env : JNIEnv) :
    ((ScopedGlobalRef.mk h).destroy env ≠ env ↔ h ≠ NULL) ∧
    (h ≠ NULL → (ScopedGlobalRef.mk h).destroy env = ⟨env.deleted ++ [h]⟩) ∧
    (h = NULL → (ScopedGlobalRef.mk h).destroy env = env) ∧
    (h ≠ NULL → lifetime h [] = ⟨[h]⟩) ∧
    lifetime NULL [] = ⟨[]⟩ := by
  refine ⟨?_, fun hh => destroy_nonnull h env hh, fun hh => ?_, fun hh => ?_, ?_⟩
  · constructor
    · intro hne hh
      subst hh
      exact hne (destroy_null env)
    · intro hh heq
      have h1 := congrArg (fun e => e.deleted.length) (destroy_nonnull h env hh)
      rw [heq] at h1
      simp at h1
  · subst hh; exact destroy_null env
  · simpa [lifetime, run, ScopedGlobalRef.construct] using destroy_nonnull h ⟨[]⟩ hh
  · simpa [lifetime, run, ScopedGlobalRef.construct] using destroy_null ⟨[]⟩

/-- C3: `release()` on a wrapper holding `h` returns `h`, leaves the wrapper
holding `NULL` and leaves the record of deletion calls as it was; destroying
the wrapper afterwards adds no deletion call; on a wrapper that already holds
`NULL` it returns `NULL` and changes nothing. -/
theorem release_contract (h : jobject) (env : JNIEnv) :
    (ScopedGlobalRef.mk h).release = (h, ⟨NULL⟩) ∧
    Call.release.exec (⟨h⟩, env) = ((⟨NULL⟩, env), Ret.ref h) ∧
    (ScopedGlobalRef.mk h).release.2.destroy env = env ∧
    lifetime h [Call.release] = ⟨[]⟩ ∧
    Call.release.exec (⟨NULL⟩, env) = ((⟨NULL⟩, env), Ret.ref NULL) := by
  refine ⟨rfl, rfl, destroy_null env, ?_, rfl⟩
  simpa [lifetime, run, Call.exec, ScopedGlobalRef.release, ScopedGlobalRef.construct]
    using destroy_null ⟨[]⟩

/-! ## Facts about the table of wrappers -/

theorem obj_lt {w : World} {i : Nat} {a : ScopedGlobalRef} (h : w.obj i = some a) :
    i < w.objs.length := by
  by_contra hc
  have hn : w.objs[i]? = none := List.getElem?_eq_none (Nat.le_of_not_lt hc)
  simp [World.obj, hn] at h

theorem obj_set_self (objs : List (Option ScopedGlobalRef)) (env : JNIEnv) (i : Nat)
    (x : Option ScopedGlobalRef) (hi : i < objs.length) :
    (World.mk (objs.set i x) env).obj i = x := by
  simp [World.obj, List.getElem?_set_self hi]

theorem obj_set_ne (objs : List (Option ScopedGlobalRef)) (env env2 : JNIEnv) (i j : Nat)
    (x : Option ScopedGlobalRef) (hij : i ≠ j) :
    (World.mk (objs.set i x) env).obj j = (World.mk objs env2).obj j := by
  simp [World.obj, List.getElem?_set_ne hij]

theorem obj_push_lt (objs : List (Option ScopedGlobalRef)) (env env2 : JNIEnv) (j : Nat)
    (x : Option ScopedGlobalRef) (hj : j < objs.length) :
    (World.mk (objs ++ [x]) env).obj j = (World.mk objs env2).obj j := by
  simp [World.obj, List.getElem?_append_left hj]

theorem obj_push_length (objs : List (Option ScopedGlobalRef)) (env : JNIEnv)
    (x : Option ScopedGlobalRef) :
    (World.mk (objs ++ [x]) env).obj objs.length = x := by
  simp [World.obj]

theorem obj_push_gt (objs : List (Option ScopedGlobalRef)) (env : JNIEnv) (j : Nat)
    (x : Option ScopedGlobalRef) (hj : objs.length < j) :
    (World.mk (objs ++ [x]) env).obj j = none := by
  have hn : (objs ++ [x])[j]? = none := List.getElem?_eq_none (by simp; omega)
  simp [World.obj, hn]

theorem held_eq_some {w : World} {i : Nat} {r : jobject} :
    w.held i = some r ↔ w.obj i = some ⟨r⟩ := by
  unfold World.held
  cases h : w.obj i with
  | none => simp
  | some a =>
      cases a with
      | mk m => simp [ScopedGlobalRef.get]

theorem stepW_moveConstruct {w : World} {s : Nat} {a : ScopedGlobalRef}
    (h : w.obj s = some a) :
    stepW (Op.moveConstruct s) w =
      some ⟨w.objs.set s (some ⟨NULL⟩) ++ [some ⟨a.mGlobalRef⟩], w.env⟩ := by
  simp [stepW, step, h, ScopedGlobalRef.moveConstruct, ScopedGlobalRef.release]

theorem stepW_moveAssign {w : World} {dst s : Nat} {a b : ScopedGlobalRef}
    (h : w.obj s = some a)
    (hb : (World.mk (w.objs.set s (some ⟨NULL⟩)) w.env).obj dst = some b) :
    stepW (Op.moveAssign dst s) w =
      some ⟨(w.objs.set s (some ⟨NULL⟩)).set dst (some ⟨a.mGlobalRef⟩),
        (b.reset w.env a.mGlobalRef).2⟩ := by
  have e : (b.reset w.env a.mGlobalRef).1 = ⟨a.mGlobalRef⟩ := by
    have := reset_holds b w.env a.mGlobalRef
    cases hr : (b.reset w.env a.mGlobalRef).1 with
    | mk m => rw [hr] at this; simpa using this
  simp [stepW, step, h, ScopedGlobalRef.release, hb, e]

theorem stepW_reset {w : World} {i : Nat} {a : ScopedGlobalRef} (ptr : jobject)
    (h : w.obj i = some a) :
    stepW (Op.reset i ptr) w = some ⟨w.objs.set i (some ⟨ptr⟩), (a.reset w.env ptr).2⟩ := by
  have e : (a.reset w.env ptr).1 = ⟨ptr⟩ := by
    have := reset_holds a w.env ptr
    cases hr : (a.reset w.env ptr).1 with
    | mk m => rw [hr] at this; simpa using this
  simp [stepW, step, h, e]

theorem stepW_release {w : World} {i : Nat} {a : ScopedGlobalRef} (h : w.obj i = some a) :
    stepW (Op.release i) w = some ⟨w.objs.set i (some ⟨NULL⟩), w.env⟩ := by
  simp [stepW, step, h, ScopedGlobalRef.release]

theorem stepW_destroy {w : World} {i : Nat} {a : ScopedGlobalRef} (h : w.obj i = some a) :
    stepW (Op.destroy i) w = some ⟨w.objs.set i none, a.destroy w.env⟩ := by
  simp [stepW, step, h]

/-! ## Moves between wrappers -/

/-- C4: in any program state, let wrapper `a` hold `V`.  Move-constructing a
new wrapper (identity `w.objs.length`) from `a` is defined, leaves the record
of deletion calls unchanged, leaves `a` holding `NULL` and the new wrapper
holding `V`.  When `V` is a handle (not `NULL`), destroying both afterwards,
in either order, grows the record by exactly the one call
`DeleteGlobalRef(V)`, and that call is made by the destruction of the new
wrapper: the destruction of `a` leaves the record unchanged. -/
theorem moveConstruct_contract (w : World) (a : Nat) (V : jobject)
    (hA : w.held a = some V) :
    ∃ w1, stepW (Op.moveConstruct a) w = some w1 ∧ w1.env = w.env ∧
      w1.held a = some NULL ∧ w1.held w.objs.length = some V ∧
      (V ≠ NULL →
        (∃ w2 w3, stepW (Op.destroy a) w1 = some w2 ∧ w2.env = w.env ∧
          stepW (Op.destroy w.objs.length) w2 = some w3 ∧
          w3.env = ⟨w.env.deleted ++ [V]⟩) ∧
        (∃ w2 w3, stepW (Op.destroy w.objs.length) w1 = some w2 ∧
          w2.env = ⟨w.env.deleted ++ [V]⟩ ∧
          stepW (Op.destroy a) w2 = some w3 ∧ w3.env = w2.env)) := by
  have ha := held_eq_some.mp hA
  have hlt := obj_lt ha
  have hne : a ≠ w.objs.length := Nat.ne_of_lt hlt
  have hlen : (w.objs.set a (some (ScopedGlobalRef.mk NULL))).length = w.objs.length :=
    List.length_set _ _ _
  -- the state after the move construction
  have hA1 : ∀ env : JNIEnv,
      (World.mk (w.objs.set a (some ⟨NULL⟩) ++ [some ⟨V⟩]) env).obj a = some ⟨NULL⟩ := by
    intro env
    rw [obj_push_lt _ env env a _ (by rw [hlen]; exact hlt)]
    exact obj_set_self _ _ _ _ hlt
  have hB1 : ∀ env : JNIEnv,
      (World.mk (w.objs.set a (some ⟨NULL⟩) ++ [some ⟨V⟩]) env).obj w.objs.length
        = some ⟨V⟩ := by
    intro env
    have := obj_push_length (w.objs.set a (some ⟨NULL⟩)) env (some ⟨V⟩)
    rwa [hlen] at this
  refine ⟨_, stepW_moveConstruct ha, rfl, held_eq_some.mpr (hA1 _), held_eq_some.mpr (hB1 _),
    fun hV => ⟨?_, ?_⟩⟩
  · -- `a` first, then the new wrapper
    refine ⟨_, _, stepW_destroy (hA1 _), destroy_null _,
      stepW_destroy (a := ScopedGlobalRef.mk V) ?_, ?_⟩
    · dsimp only
      rw [obj_set_ne _ _ w.env a _ _ hne]
      exact hB1 _
    · show (ScopedGlobalRef.mk V).destroy ((ScopedGlobalRef.mk NULL).destroy w.env) = _
      rw [destroy_null, destroy_nonnull V _ hV]
  · -- the new wrapper first, then `a`
    refine ⟨_, _, stepW_destroy (hB1 _), destroy_nonnull V _ hV,
      stepW_destroy (a := ScopedGlobalRef.mk NULL) ?_, ?_⟩
    · dsimp only
      rw [obj_set_ne _ _ w.env _ _ _ (Ne.symm hne)]
      exact hA1 _
    · exact destroy_null _

/-- Witness for `moveConstruct_contract`: one wrapper holding `5`. -/
theorem moveConstruct_contract_witness :
    (World.mk [some ⟨5⟩] ⟨[]⟩).held 0 = some 5 ∧
    ∃ w1, stepW (Op.moveConstruct 0) (World.mk [some ⟨5⟩] ⟨[]⟩) = some w1 ∧
      w1.env = (World.mk [some ⟨5⟩] ⟨[]⟩).env ∧
      w1.held 0 = some NULL ∧ w1.held (World.mk [some ⟨5⟩] ⟨[]⟩).objs.length = some 5 ∧
      (5 ≠ NULL →
        (∃ w2 w3, stepW (Op.destroy 0) w1 = some w2 ∧
          w2.env = (World.mk [some ⟨5⟩] ⟨[]⟩).env ∧
          stepW (Op.destroy (World.mk [some ⟨5⟩] ⟨[]⟩).objs.length) w2 = some w3 ∧
          w3.env = ⟨(World.mk [some ⟨5⟩] ⟨[]⟩).env.deleted ++ [5]⟩) ∧
        (∃ w2 w3, stepW (Op.destroy (World.mk [some ⟨5⟩] ⟨[]⟩).objs.length) w1 = some w2 ∧
          w2.env = ⟨(World.mk [some ⟨5⟩] ⟨[]⟩).env.deleted ++ [5]⟩ ∧
          stepW (Op.destroy 0) w2 = some w3 ∧ w3.env = w2.env)) :=
  ⟨rfl, moveConstruct_contract (World.mk [some ⟨5⟩] ⟨[]⟩) 0 5 rfl⟩

/-- C5: in any program state, let wrapper `a` hold `H` and a different wrapper
`b` hold `H2`.  Move-assigning `a` into `b` is defined; the record of deletion
calls changes exactly as `reset(H)` on a wrapper holding `H2` changes it;
afterwards `a` holds `NULL` and `b` holds `H`.  With `H2` different from `H`
and not `NULL` the record grows by exactly the one call
`DeleteGlobalRef(H2)`.  With `H` not `NULL`, destroying `b` afterwards grows
the record by exactly the one call `DeleteGlobalRef(H)`. -/
theorem moveAssign_contract (w : World) (a b : Nat) (H H2 : jobject) (hab : a ≠ b)
    (hA : w.held a = some H) (hB : w.held b = some H2) :
    ∃ w1, stepW (Op.moveAssign b a) w = some w1 ∧
      w1.env = ((ScopedGlobalRef.mk H2).reset w.env H).2 ∧
      w1.held a = some NULL ∧ w1.held b = some H ∧
      (H2 ≠ H → H2 ≠ NULL → w1.env = ⟨w.env.deleted ++ [H2]⟩) ∧
      (H ≠ NULL → ∃ w2, stepW (Op.destroy b) w1 = some w2 ∧
        w2.env = ⟨w1.env.deleted ++ [H]⟩) := by
  have ha := held_eq_some.mp hA
  have hb := held_eq_some.mp hB
  have hlta := obj_lt ha
  have hltb := obj_lt hb
  have hb1 : (World.mk (w.objs.set a (some ⟨NULL⟩)) w.env).obj b = some ⟨H2⟩ := by
    rw [obj_set_ne _ _ w.env a b _ hab]
    exact hb
  have hltb1 : b < (w.objs.set a (some (ScopedGlobalRef.mk NULL))).length := by
    rw [List.length_set]; exact hltb
  refine ⟨_, stepW_moveAssign ha hb1, rfl, held_eq_some.mpr ?_, held_eq_some.mpr ?_, ?_, ?_⟩
  · rw [obj_set_ne _ _ w.env b a _ (Ne.symm hab)]
    exact obj_set_self _ _ _ _ hlta
  · exact obj_set_self _ _ _ _ hltb1
  · intro h1 h2
    show ((ScopedGlobalRef.mk H2).reset w.env H).2 = _
    rw [reset_other H2 H w.env (Ne.symm h1) h2]
  · intro hH
    refine ⟨_, stepW_destroy (a := ScopedGlobalRef.mk H) (obj_set_self _ _ _ _ hltb1), ?_⟩
    exact destroy_nonnull H _ hH

/-- Witness for `moveAssign_contract`: wrapper `0` holds `5`, wrapper `1`
holds `7`. -/
theorem moveAssign_contract_witness :
    ((0 : Nat) ≠ 1 ∧ (World.mk [some ⟨5⟩, some ⟨7⟩] ⟨[]⟩).held 0 = some 5 ∧
      (World.mk [some ⟨5⟩, some ⟨7⟩] ⟨[]⟩).held 1 = some 7) ∧
    ∃ w1, stepW (Op.moveAssign 1 0) (World.mk [some ⟨5⟩, some ⟨7⟩] ⟨[]⟩) = some w1 ∧
      w1.env = ((ScopedGlobalRef.mk 7).reset (World.mk [some ⟨5⟩, some ⟨7⟩] ⟨[]⟩).env 5).2 ∧
      w1.held 0 = some NULL ∧ w1.held 1 = some 5 ∧
      ((7 : jobject) ≠ 5 → 7 ≠ NULL →
        w1.env = ⟨(World.mk [some ⟨5⟩, some ⟨7⟩] ⟨[]⟩).env.deleted ++ [7]⟩) ∧
      (5 ≠ NULL → ∃ w2, stepW (Op.destroy 1) w1 = some w2 ∧
        w2.env = ⟨w1.env.deleted ++ [5]⟩) :=
  ⟨⟨by decide, rfl, rfl⟩,
    moveAssign_contract (World.mk [some ⟨5⟩, some ⟨7⟩] ⟨[]⟩) 0 1 5 7 (by decide) rfl rfl⟩

/-! ## Whole lifetimes of one wrapper -/

/-- The invariant behind exactly-once release: no reference was deleted
twice, and the reference now held, unless `NULL`, was not deleted yet. -/
theorem noReuse_invariant (cs : List Call) (st : St) (hN : NoReuse cs st)
    (hd : st.2.deleted.Nodup) (hh : st.1.mGlobalRef = NULL ∨ st.1.mGlobalRef ∉ st.2.deleted) :
    (run cs st).2.deleted.Nodup ∧
      ((run cs st).1.mGlobalRef = NULL ∨ (run cs st).1.mGlobalRef ∉ (run cs st).2.deleted) := by
  induction cs generalizing st with
  | nil => exact ⟨hd, hh⟩
  | cons c cs ih =>
      obtain ⟨⟨h⟩, env⟩ := st
      obtain ⟨hc, hrest⟩ := hN
      simp only at hd hh
      cases c with
      | reset p =>
          simp only at hc
          refine ih _ hrest ?_ ?_
          · by_cases hp : p = h
            · subst hp
              simpa [Call.exec, reset_same] using hd
            · by_cases h0 : h = NULL
              · subst h0
                simpa [Call.exec, reset_of_null] using hd
              · have hni : h ∉ env.deleted := by
                  rcases hh with hh | hh
                  · exact absurd hh h0
                  · exact hh
                simp only [Call.exec, reset_other h p env hp h0]
                exact List.Nodup.append hd (List.nodup_singleton h) (by simpa using hni)
          · by_cases hp : p = h
            · subst hp
              simpa [Call.exec, reset_same] using hh
            · by_cases h0 : h = NULL
              · subst h0
                simpa [Call.exec, reset_of_null] using hc
              · simp only [Call.exec, reset_other h p env hp h0]
                rcases hc with hc | hc
                · exact Or.inl hc
                · right
                  simp [hc, hp]
      | release =>
          exact ih _ hrest hd (Or.inl rfl)
      | get => exact ih _ hrest hd hh
      | toBool => exact ih _ hrest hd hh

/-- C6, as the code has it: take any initial reference and any finite
sequence of `reset`, `release`, `get` and boolean-conversion calls, followed
by destruction, in which no `reset` is handed a non-`NULL` reference that
`DeleteGlobalRef` was already called with.  Then `DeleteGlobalRef` is called
at most once with each reference (so at most once per reference ever held). -/
theorem lifetime_deletes_once (init : jobject) (calls : List Call)
    (hN : NoReuse calls (ScopedGlobalRef.construct init, ⟨[]⟩)) (v : jobject) :
    (lifetime init calls).deleted.count v ≤ 1 := by
  have hinv := noReuse_invariant calls (ScopedGlobalRef.construct init, ⟨[]⟩) hN
    List.nodup_nil (Or.inr (by simp))
  apply List.nodup_iff_count_le_one.mp
  unfold lifetime
  generalize run calls (ScopedGlobalRef.construct init, ⟨[]⟩) = st at hinv
  obtain ⟨⟨h⟩, env⟩ := st
  obtain ⟨hd, hh⟩ := hinv
  simp only at hd hh ⊢
  by_cases h0 : h = NULL
  · subst h0
    rw [destroy_null]
    exact hd
  · rw [destroy_nonnull h env h0]
    have hni : h ∉ env.deleted := by
      rcases hh with hh | hh
      · exact absurd hh h0
      · exact hh
    exact List.Nodup.append hd (List.nodup_singleton h) (by simpa using hni)

/-- Witness for `lifetime_deletes_once`: construct with `1`, `reset(2)`,
`release()`, `reset(2)`, `get()`, `reset(3)`, destruction. -/
theorem lifetime_deletes_once_witness :
    NoReuse [Call.reset 2, Call.release, Call.reset 2, Call.get, Call.reset 3]
      (ScopedGlobalRef.construct 1, ⟨[]⟩) ∧
    (lifetime 1 [Call.reset 2, Call.release, Call.reset 2, Call.get, Call.reset 3]).deleted.count 2
      ≤ 1 :=
  have hN : NoReuse [Call.reset 2, Call.release, Call.reset 2, Call.get, Call.reset 3]
      (ScopedGlobalRef.construct 1, ⟨[]⟩) := by
    simp [NoReuse, Call.exec, ScopedGlobalRef.reset, ScopedGlobalRef.release,
      ScopedGlobalRef.construct, JNIEnv.DeleteGlobalRef, NULL]
  ⟨hN, lifetime_deletes_once 1 _ hN 2⟩

/-- C6, as stated, fails: construct with `1`, `reset(2)`, `reset(1)`,
destruction.  The wrapper held the non-`NULL` reference `1`, and
`DeleteGlobalRef(1)` is called twice (the record is `[1, 2, 1]`). -/
theorem lifetime_deletes_twice :
    (1 : jobject) ≠ NULL ∧
    (1 : jobject) ∈ everHeld [Call.reset 2, Call.reset 1] (ScopedGlobalRef.construct 1, ⟨[]⟩) ∧
    lifetime 1 [Call.reset 2, Call.reset 1] = ⟨[1, 2, 1]⟩ ∧
    (lifetime 1 [Call.reset 2, Call.reset 1]).deleted.count 1 = 2 := by
  decide

/-! ## Replacing the held reference -/

/-- C7, as the code has it: on a wrapper holding a non-`NULL` `V1`, with `V2`
different from `V1`, `reset(V2)` grows the record of deletion calls by exactly
the one call `DeleteGlobalRef(V1)` and leaves the wrapper holding `V2`.
Calling `reset(V2)` again changes nothing.  Calling `reset(V1)` instead leaves
the wrapper holding `V1` and makes no further call with `V1`: it makes exactly
the one call `DeleteGlobalRef(V2)` when `V2` is not `NULL`, and no call when
`V2` is `NULL`. -/
theorem reset_replaces (V1 V2 : jobject) (env : JNIEnv) (h1 : V1 ≠ NULL) (h12 : V2 ≠ V1) :
    run [Call.reset V2] (⟨V1⟩, env) = (⟨V2⟩, ⟨env.deleted ++ [V1]⟩) ∧
    run [Call.reset V2, Call.reset V2] (⟨V1⟩, env) = (⟨V2⟩, ⟨env.deleted ++ [V1]⟩) ∧
    (V2 ≠ NULL →
      run [Call.reset V2, Call.reset V1] (⟨V1⟩, env) = (⟨V1⟩, ⟨env.deleted ++ [V1] ++ [V2]⟩)) ∧
    (V2 = NULL →
      run [Call.reset V2, Call.reset V1] (⟨V1⟩, env) = (⟨V1⟩, ⟨env.deleted ++ [V1]⟩)) := by
  refine ⟨?_, ?_, fun h2 => ?_, fun h2 => ?_⟩
  · simp [run, Call.exec, reset_other V1 V2 env h12 h1]
  · simp [run, Call.exec, reset_other V1 V2 env h12 h1, reset_same]
  · simp [run, Call.exec, reset_other V1 V2 env h12 h1,
      reset_other V2 V1 ⟨env.deleted ++ [V1]⟩ (Ne.symm h12) h2]
  · subst h2
    simp [run, Call.exec, reset_other V1 NULL env h12 h1, reset_of_null]

/-- Witness for `reset_replaces`: a wrapper holding `1`, `reset(2)`. -/
theorem reset_replaces_witness :
    ((1 : jobject) ≠ NULL ∧ (2 : jobject) ≠ 1) ∧
    run [Call.reset 2] (⟨1⟩, ⟨[]⟩) = (⟨2⟩, ⟨[] ++ [1]⟩) ∧
    run [Call.reset 2, Call.reset 2] (⟨1⟩, ⟨[]⟩) = (⟨2⟩, ⟨[] ++ [1]⟩) ∧
    ((2 : jobject) ≠ NULL →
      run [Call.reset 2, Call.reset 1] (⟨1⟩, ⟨[]⟩) = (⟨1⟩, ⟨[] ++ [1] ++ [2]⟩)) ∧
    ((2 : jobject) = NULL →
      run [Call.reset 2, Call.reset 1] (⟨1⟩, ⟨[]⟩) = (⟨1⟩, ⟨[] ++ [1]⟩)) :=
  ⟨⟨by decide, by decide⟩, reset_replaces 1 2 ⟨[]⟩ (by decide) (by decide)⟩

/-- C7, as stated, fails: on a wrapper holding `1`, after `reset(2)` (one
call, `DeleteGlobalRef(1)`) the call `reset(1)` is not free of deletion calls:
it calls `DeleteGlobalRef(2)`, so the record grows from `[1]` to `[1, 2]`. -/
theorem reset_back_deletes :
    (2 : jobject) ≠ 1 ∧
    run [Call.reset 2] (⟨1⟩, ⟨[]⟩) = (⟨2⟩, ⟨[1]⟩) ∧
    run [Call.reset 2, Call.reset 1] (⟨1⟩, ⟨[]⟩) = (⟨1⟩, ⟨[1, 2]⟩) ∧
    (run [Call.reset 2, Call.reset 1] (⟨1⟩, ⟨[]⟩)).2.deleted ≠
      (run [Call.reset 2] (⟨1⟩, ⟨[]⟩)).2.deleted := by
  decide

/-! ## Observers -/

/-- C9: `get()` returns the held reference and changes neither the wrapper nor
the record of deletion calls; any number of consecutive `get()` calls leave
the state as it was and all return the held reference.  After construction
with `H`: `get()` gives `H` (twice), `release()` gives `H`, a following
`get()` gives `NULL`, and destruction then leaves the record empty. -/
theorem get_contract (h : jobject) (env : JNIEnv) (n : Nat) :
    Call.get.exec (⟨h⟩, env) = ((⟨h⟩, env), Ret.ref h) ∧
    run (List.replicate n Call.get) (⟨h⟩, env) = (⟨h⟩, env) ∧
    results (List.replicate n Call.get) (⟨h⟩, env) = List.replicate n (Ret.ref h) ∧
    results [Call.get, Call.get, Call.release, Call.get] (ScopedGlobalRef.construct h, env)
      = [Ret.ref h, Ret.ref h, Ret.ref h, Ret.ref NULL] ∧
    lifetime h [Call.get, Call.get, Call.release, Call.get] = ⟨[]⟩ := by
  refine ⟨rfl, run_replicate_get n _, results_replicate_get n _, rfl, ?_⟩
  simpa [lifetime, run, Call.exec, ScopedGlobalRef.release, ScopedGlobalRef.construct]
    using destroy_null ⟨[]⟩

/-- C10: the boolean conversion is `true` exactly when the held reference is
not `NULL`, and it changes neither the wrapper nor the record of deletion
calls; a wrapper constructed with `NULL` converts to `false`, and its
destruction leaves the record empty. -/
theorem toBool_contract (h : jobject) (env : JNIEnv) :
    ((ScopedGlobalRef.mk h).toBool = true ↔ h ≠ NULL) ∧
    Call.toBool.exec (⟨h⟩, env) = ((⟨h⟩, env), Ret.bool (ScopedGlobalRef.mk h).toBool) ∧
    (ScopedGlobalRef.construct NULL).toBool = false ∧
    lifetime NULL [Call.toBool] = ⟨[]⟩ := by
  refine ⟨?_, rfl, by decide, by decide⟩
  simp [ScopedGlobalRef.toBool]

/-! ## Unique ownership across wrappers -/

theorem held_mem {w : World} {j : Nat} {v : jobject} (h : w.held j = some v) :
    some (ScopedGlobalRef.mk v) ∈ w.objs := by
  have ho := held_eq_some.mp h
  unfold World.obj at ho
  cases hj : w.objs[j]? with
  | none => simp [hj] at ho
  | some x =>
      rw [hj] at ho
      have hx : x = some ⟨v⟩ := by simpa using ho
      rw [hx] at hj
      exact List.getElem?_mem hj

theorem unique_set (w : World) (i : Nat) (v : jobject) (env1 : JNIEnv)
    (hi : i < w.objs.length) (hf : v = NULL ∨ ∀ j, j ≠ i → w.held j ≠ some v)
    (hU : Unique w) : Unique ⟨w.objs.set i (some ⟨v⟩), env1⟩ := by
  have hself : (World.mk (w.objs.set i (some ⟨v⟩)) env1).held i = some v :=
    held_eq_some.mpr (obj_set_self _ _ _ _ hi)
  have hother : ∀ j, j ≠ i → (World.mk (w.objs.set i (some ⟨v⟩)) env1).held j = w.held j := by
    intro j hj
    unfold World.held
    rw [obj_set_ne _ _ w.env i j _ (Ne.symm hj)]
  intro j k r hj hk hr
  by_cases hji : j = i
  · by_cases hki : k = i
    · rw [hji, hki]
    · exfalso
      rw [hji, hself] at hj
      rw [hother k hki] at hk
      have hrv : v = r := by simpa using hj
      subst hrv
      rcases hf with hf | hf
      · exact hr hf
      · exact hf k hki hk
  · by_cases hki : k = i
    · exfalso
      rw [hki, hself] at hk
      rw [hother j hji] at hj
      have hrv : v = r := by simpa using hk
      subst hrv
      rcases hf with hf | hf
      · exact hr hf
      · exact hf j hji hj
    · rw [hother j hji] at hj
      rw [hother k hki] at hk
      exact hU j k r hj hk hr

theorem unique_set_none (w : World) (i : Nat) (env1 : JNIEnv) (hi : i < w.objs.length)
    (hU : Unique w) : Unique ⟨w.objs.set i none, env1⟩ := by
  have hself : (World.mk (w.objs.set i none) env1).held i = none := by
    unfold World.held
    rw [obj_set_self _ _ _ _ hi]
    rfl
  have hother : ∀ j, j ≠ i → (World.mk (w.objs.set i none) env1).held j = w.held j := by
    intro j hj
    unfold World.held
    rw [obj_set_ne _ _ w.env i j _ (Ne.symm hj)]
  intro j k r hj hk hr
  by_cases hji : j = i
  · rw [hji, hself] at hj
    exact absurd hj (by simp)
  · by_cases hki : k = i
    · rw [hki, hself] at hk
      exact absurd hk (by simp)
    · rw [hother j hji] at hj
      rw [hother k hki] at hk
      exact hU j k r hj hk hr

theorem unique_push (w : World) (v : jobject) (env1 : JNIEnv)
    (hf : v = NULL ∨ ∀ j, w.held j ≠ some v) (hU : Unique w) :
    Unique ⟨w.objs ++ [some ⟨v⟩], env1⟩ := by
  have hlt : ∀ j, j < w.objs.length →
      (World.mk (w.objs ++ [some ⟨v⟩]) env1).held j = w.held j := by
    intro j hj
    unfold World.held
    rw [obj_push_lt _ _ w.env j _ hj]
  have heq : (World.mk (w.objs ++ [some ⟨v⟩]) env1).held w.objs.length = some v :=
    held_eq_some.mpr (obj_push_length _ _ _)
  have hgt : ∀ j, w.objs.length < j →
      (World.mk (w.objs ++ [some ⟨v⟩]) env1).held j = none := by
    intro j hj
    unfold World.held
    rw [obj_push_gt _ _ j _ hj]
    rfl
  intro j k r hj hk hr
  rcases Nat.lt_trichotomy j w.objs.length with h1 | h1 | h1
  · rcases Nat.lt_trichotomy k w.objs.length with h2 | h2 | h2
    · rw [hlt j h1] at hj
      rw [hlt k h2] at hk
      exact hU j k r hj hk hr
    · exfalso
      rw [h2, heq] at hk
      rw [hlt j h1] at hj
      have hrv : v = r := by simpa using hk
      subst hrv
      rcases hf with hf | hf
      · exact hr hf
      · exact hf j hj
    · rw [hgt k h2] at hk
      exact absurd hk (by simp)
  · rcases Nat.lt_trichotomy k w.objs.length with h2 | h2 | h2
    · exfalso
      rw [h1, heq] at hj
      rw [hlt k h2] at hk
      have hrv : v = r := by simpa using hj
      subst hrv
      rcases hf with hf | hf
      · exact hr hf
      · exact hf k hk
    · rw [h1, h2]
    · rw [hgt k h2] at hk
      exact absurd hk (by simp)
  · rw [hgt j h1] at hj
    exact absurd hj (by simp)

/-- After `release()` on wrapper `s`, which held `r`, no live wrapper holds
`r` (unless `r` is `NULL`): `r` is free to be stored again. -/
theorem released_is_free (w : World) (s : Nat) (r : jobject) (env1 : JNIEnv)
    (hs : w.held s = some r) (hU : Unique w) :
    r = NULL ∨ ∀ j, (World.mk (w.objs.set s (some ⟨NULL⟩)) env1).held j ≠ some r := by
  by_cases hr : r = NULL
  · exact Or.inl hr
  · right
    intro j hj
    have hlt := obj_lt (held_eq_some.mp hs)
    by_cases hjs : j = s
    · rw [hjs, held_eq_some.mpr (obj_set_self _ _ _ _ hlt)] at hj
      exact hr (by simpa using hj.symm)
    · have : (World.mk (w.objs.set s (some ⟨NULL⟩)) env1).held j = w.held j := by
        unfold World.held
        rw [obj_set_ne _ _ w.env s j _ (Ne.symm hjs)]
      rw [this] at hj
      exact hjs (hU j s r hj hs hr)

theorem unique_step (op : Op) (w w1 : World) (hU : Unique w) (hF : op.fresh w)
    (hS : stepW op w = some w1) : Unique w1 := by
  cases op with
  | construct v =>
      simp only [stepW, step, ScopedGlobalRef.construct, Option.map_some', Option.some.injEq]
        at hS
      subst hS
      refine unique_push w v w.env ?_ hU
      rcases hF with hF | hF
      · exact Or.inl hF
      · exact Or.inr (fun j hj => hF (held_mem hj))
  | constructDefault =>
      simp only [stepW, step, ScopedGlobalRef.constructDefault, Option.map_some',
        Option.some.injEq] at hS
      subst hS
      exact unique_push w NULL w.env (Or.inl rfl) hU
  | moveConstruct s =>
      cases h : w.obj s with
      | none => simp [stepW, step, h] at hS
      | some a =>
          rw [stepW_moveConstruct h, Option.some.injEq] at hS
          subst hS
          have hs : w.held s = some a.mGlobalRef := by
            unfold World.held; rw [h]; rfl
          exact unique_push ⟨w.objs.set s (some ⟨NULL⟩), w.env⟩ a.mGlobalRef w.env
            (released_is_free w s a.mGlobalRef w.env hs hU)
            (unique_set w s NULL w.env (obj_lt h) (Or.inl rfl) hU)
  | moveAssign dst s =>
      cases h : w.obj s with
      | none => simp [stepW, step, h] at hS
      | some a =>
          cases hb : (World.mk (w.objs.set s (some ⟨NULL⟩)) w.env).obj dst with
          | none => simp [stepW, step, h, ScopedGlobalRef.release, hb] at hS
          | some b =>
              rw [stepW_moveAssign h hb, Option.some.injEq] at hS
              subst hS
              have hs : w.held s = some a.mGlobalRef := by
                unfold World.held; rw [h]; rfl
              refine unique_set ⟨w.objs.set s (some ⟨NULL⟩), w.env⟩ dst a.mGlobalRef _
                (obj_lt hb) ?_ (unique_set w s NULL w.env (obj_lt h) (Or.inl rfl) hU)
              rcases released_is_free w s a.mGlobalRef w.env hs hU with hr | hr
              · exact Or.inl hr
              · exact Or.inr (fun j _ => hr j)
  | reset i v =>
      cases h : w.obj i with
      | none => simp [stepW, step, h] at hS
      | some a =>
          rw [stepW_reset v h, Option.some.injEq] at hS
          subst hS
          refine unique_set w i v _ (obj_lt h) ?_ hU
          rcases hF with hF | hF
          · exact Or.inl hF
          · right
            intro j hji hj
            apply hF
            have : (World.mk (w.objs.set i none) w.env).held j = some v := by
              unfold World.held
              rw [obj_set_ne _ _ w.env i j _ (Ne.symm hji)]
              exact hj
            exact held_mem this
  | release i =>
      cases h : w.obj i with
      | none => simp [stepW, step, h] at hS
      | some a =>
          rw [stepW_release h, Option.some.injEq] at hS
          subst hS
          exact unique_set w i NULL w.env (obj_lt h) (Or.inl rfl) hU
  | get i =>
      cases h : w.obj i with
      | none => simp [stepW, step, h] at hS
      | some a =>
          simp only [stepW, step, h, Option.map_some', Option.some.injEq] at hS
          subst hS
          exact hU
  | toBool i =>
      cases h : w.obj i with
      | none => simp [stepW, step, h] at hS
      | some a =>
          simp only [stepW, step, h, Option.map_some', Option.some.injEq] at hS
          subst hS
          exact hU
  | destroy i =>
      cases h : w.obj i with
      | none => simp [stepW, step, h] at hS
      | some a =>
          rw [stepW_destroy h, Option.some.injEq] at hS
          subst hS
          exact unique_set_none w i _ (obj_lt h) hU

theorem unique_runOps (ops : List Op) (w w1 : World) (hU : Unique w) (hF : FreshRun ops w)
    (hR : runOps ops w = some w1) : Unique w1 := by
  induction ops generalizing w with
  | nil =>
      simp only [runOps, Option.some.injEq] at hR
      subst hR
      exact hU
  | cons op ops ih =>
      obtain ⟨hf, hrest⟩ := hF
      cases hs : stepW op w with
      | none => simp [runOps, hs] at hR
      | some w2 =>
          rw [hs] at hrest
          simp only [runOps, hs, Option.some_bind] at hR
          exact ih w2 (unique_step op w w2 hU hf hs) hrest hR

/-- C8, as the code has it: start with no wrapper and run any program of
public operations (construction from a value, default construction, move
construction, move assignment, `reset`, `release`, `get`, boolean conversion,
destruction) in which every constructor is handed `NULL` or a reference no
live wrapper holds and every `reset` is handed `NULL` or a reference no other
live wrapper holds.  In the state reached, at most one live wrapper holds any
given non-`NULL` reference. -/
theorem unique_ownership (ops : List Op) (w : World) (hF : FreshRun ops World.init)
    (hR : runOps ops World.init = some w) : Unique w := by
  refine unique_runOps ops World.init w ?_ hF hR
  intro i j r hi
  simp [World.held, World.obj, World.init] at hi

/-- C8, as stated, fails: two wrappers constructed from the same reference `5`
are both live and both hold `5`. -/
theorem shared_after_two_constructions :
    ∃ w, runOps [Op.construct 5, Op.construct 5] World.init = some w ∧ ¬ Unique w := by
  refine ⟨⟨[some ⟨5⟩, some ⟨5⟩], ⟨[]⟩⟩, rfl, fun hU => ?_⟩
  have h := hU 0 1 5 rfl rfl (by decide)
  exact absurd h (by decide)

/-- Witness for `unique_ownership`: two constructions from different
references, a move construction, a move assignment, a `reset` to a new
reference, a `release` and a destruction. -/
theorem unique_ownership_witness :
    FreshRun [Op.construct 5, Op.construct 7, Op.moveConstruct 0, Op.moveAssign 1 2,
      Op.reset 0 9, Op.release 1, Op.destroy 0] World.init ∧
    runOps [Op.construct 5, Op.construct 7, Op.moveConstruct 0, Op.moveAssign 1 2,
      Op.reset 0 9, Op.release 1, Op.destroy 0] World.init
      = some ⟨[none, some ⟨NULL⟩, some ⟨NULL⟩], ⟨[7, 9]⟩⟩ ∧
    Unique ⟨[none, some ⟨NULL⟩, some ⟨NULL⟩], ⟨[7, 9]⟩⟩ :=
  have hF : FreshRun [Op.construct 5, Op.construct 7, Op.moveConstruct 0, Op.moveAssign 1 2,
      Op.reset 0 9, Op.release 1, Op.destroy 0] World.init := by
    simp [FreshRun, Op.fresh, stepW, step, World.init, World.obj, ScopedGlobalRef.construct,
      ScopedGlobalRef.moveConstruct, ScopedGlobalRef.release, ScopedGlobalRef.reset,
      ScopedGlobalRef.destroy, JNIEnv.DeleteGlobalRef, NULL]
  ⟨hF, rfl, unique_ownership _ _ hF rfl⟩

/-! ## Construction and the factory -/

/-- C11: for every `v`, `NULL` included, the constructor yields a wrapper
whose `get()` is `v`; in any program state it adds that wrapper under the next
identity and leaves the record of deletion calls and the existing wrappers as
they were.  The default constructor yields the same wrapper, and the same
program state, as construction from `NULL`. -/
theorem construct_contract (v : jobject) (w : World) :
    (ScopedGlobalRef.construct v).get = v ∧
    stepW (Op.construct v) w = some ⟨w.objs ++ [some (ScopedGlobalRef.construct v)], w.env⟩ ∧
    (World.mk (w.objs ++ [some (ScopedGlobalRef.construct v)]) w.env).held w.objs.length
      = some v ∧
    ScopedGlobalRef.constructDefault = ScopedGlobalRef.construct NULL ∧
    stepW Op.constructDefault w = stepW (Op.construct NULL) w := by
  refine ⟨rfl, rfl, ?_, rfl, rfl⟩
  exact held_eq_some.mpr (obj_push_length _ _ _)

/-- C12: `make_global_ref(v)` is the wrapper `ScopedGlobalRef(v)`, whose
`get()` is `v`; it has no access to the environment.  When the return goes
through a temporary (move construction, then destruction of the temporary)
the result is the same wrapper and the record of deletion calls is
unchanged. -/
theorem make_global_ref_contract (v : jobject) (env : JNIEnv) :
    make_global_ref v = ScopedGlobalRef.construct v ∧
    (make_global_ref v).get = v ∧
    make_global_ref_unelided v env = (make_global_ref v, env) := by
  refine ⟨rfl, rfl, ?_⟩
  simp only [make_global_ref_unelided, make_global_ref, ScopedGlobalRef.moveConstruct,
    ScopedGlobalRef.release, ScopedGlobalRef.construct, destroy_null]

/-! ## Algebraic facts -/

/-- C16: move-assigning a wrapper holding `h` to itself is defined, leaves the
record of deletion calls unchanged and leaves the wrapper holding `h` (the
whole program state is as before); on a single wrapper, `release()` followed
by `reset` of the returned value restores the state. -/
theorem self_moveAssign_harmless (w : World) (a : Nat) (h : jobject) (env : JNIEnv)
    (hA : w.held a = some h) :
    stepW (Op.moveAssign a a) w = some w ∧
    run [Call.release, Call.reset (ScopedGlobalRef.mk h).release.1] (⟨h⟩, env) = (⟨h⟩, env) := by
  have ha := held_eq_some.mp hA
  have hlt := obj_lt ha
  constructor
  · have hb : (World.mk (w.objs.set a (some ⟨NULL⟩)) w.env).obj a = some ⟨NULL⟩ :=
      obj_set_self _ _ _ _ hlt
    rw [stepW_moveAssign ha hb, reset_of_null]
    have hget : w.objs[a]? = some (some ⟨h⟩) := by
      unfold World.obj at ha
      cases hj : w.objs[a]? with
      | none => simp [hj] at ha
      | some x =>
          rw [hj] at ha
          have hx : x = some ⟨h⟩ := by simpa using ha
          rw [hx]
    have hobjs : (w.objs.set a (some ⟨NULL⟩)).set a (some ⟨h⟩) = w.objs := by
      rw [List.set_set]
      apply List.ext_getElem?
      intro j
      by_cases hj : a = j
      · subst hj
        rw [List.getElem?_set_self hlt, hget]
      · rw [List.getElem?_set_ne hj]
    simp only [hobjs]
  · simp [run, Call.exec, ScopedGlobalRef.release, reset_of_null]

/-- Witness for `self_moveAssign_harmless`: one wrapper holding `5`. -/
theorem self_moveAssign_harmless_witness :
    (World.mk [some ⟨5⟩] ⟨[]⟩).held 0 = some 5 ∧
    stepW (Op.moveAssign 0 0) (World.mk [some ⟨5⟩] ⟨[]⟩) = some (World.mk [some ⟨5⟩] ⟨[]⟩) ∧
    run [Call.release, Call.reset (ScopedGlobalRef.mk 5).release.1] (⟨5⟩, ⟨[]⟩)
      = (⟨5⟩, ⟨[]⟩) :=
  ⟨rfl, self_moveAssign_harmless (World.mk [some ⟨5⟩] ⟨[]⟩) 0 5 ⟨[]⟩ rfl⟩

/-- C17: `reset(p)` twice in a row leaves the same wrapper and the same
record of deletion calls as `reset(p)` once; after `reset()` to `NULL`, a
second `reset()` and the destruction add no deletion call. -/
theorem reset_idempotent (h p : jobject) (env : JNIEnv) :
    run [Call.reset p, Call.reset p] (⟨h⟩, env) = run [Call.reset p] (⟨h⟩, env) ∧
    (run [Call.reset NULL, Call.reset NULL] (⟨h⟩, env)).2
      = (run [Call.reset NULL] (⟨h⟩, env)).2 ∧
    (run [Call.reset NULL] (⟨h⟩, env)).1.destroy (run [Call.reset NULL] (⟨h⟩, env)).2
      = (run [Call.reset NULL] (⟨h⟩, env)).2 := by
  have key : ∀ q : jobject,
      run [Call.reset q, Call.reset q] (⟨h⟩, env) = run [Call.reset q] (⟨h⟩, env) := by
    intro q
    simp only [run, Call.exec]
    have hq := reset_holds ⟨h⟩ env q
    cases hr : (ScopedGlobalRef.mk h).reset env q with
    | mk s e =>
        rw [hr] at hq
        cases s with
        | mk m =>
            simp only at hq
            subst hq
            exact reset_same m e
  refine ⟨key p, by rw [key NULL], ?_⟩
  have hq := reset_holds ⟨h⟩ env NULL
  simp only [run, Call.exec]
  cases hr : (ScopedGlobalRef.mk h).reset env NULL with
  | mk s e =>
      rw [hr] at hq
      cases s with
      | mk m =>
          simp only at hq
          subst hq
          exact destroy_null e

/-! ## What is handed to `DeleteGlobalRef` -/

/-- The only deletion `reset` can make: none, or the held non-`NULL`
reference, which differs from the one being stored. -/
theorem reset_cases (h p : jobject) (env : JNIEnv) :
    ((ScopedGlobalRef.mk h).reset env p).2 = env ∨
    (h ≠ NULL ∧ p ≠ h ∧ ((ScopedGlobalRef.mk h).reset env p).2 = ⟨env.deleted ++ [h]⟩) := by
  by_cases hp : p = h
  · subst hp
    exact Or.inl (by rw [reset_same])
  · by_cases h0 : h = NULL
    · subst h0
      exact Or.inl (by rw [reset_of_null])
    · exact Or.inr ⟨h0, hp, by rw [reset_other h p env hp h0]⟩

theorem exec_cases (c : Call) (h : jobject) (env : JNIEnv) :
    (c.exec (⟨h⟩, env)).1.2 = env ∨
    (h ≠ NULL ∧ (c.exec (⟨h⟩, env)).1.1.mGlobalRef ≠ h ∧
      (c.exec (⟨h⟩, env)).1.2 = ⟨env.deleted ++ [h]⟩) := by
  cases c with
  | reset p =>
      rcases reset_cases h p env with hr | ⟨h0, hp, hr⟩
      · exact Or.inl hr
      · refine Or.inr ⟨h0, ?_, hr⟩
        show ((ScopedGlobalRef.mk h).reset env p).1.mGlobalRef ≠ h
        rw [reset_holds]
        exact hp
  | release => exact Or.inl rfl
  | get => exact Or.inl rfl
  | toBool => exact Or.inl rfl

theorem destroy_cases (h : jobject) (env : JNIEnv) :
    (ScopedGlobalRef.mk h).destroy env = env ∨
    (h ≠ NULL ∧ (ScopedGlobalRef.mk h).destroy env = ⟨env.deleted ++ [h]⟩) := by
  by_cases h0 : h = NULL
  · subst h0
    exact Or.inl (destroy_null env)
  · exact Or.inr ⟨h0, destroy_nonnull h env h0⟩

theorem step_deletes_held (op : Op) (w w1 : World) (hS : stepW op w = some w1) :
    w1.env = w.env ∨
    ∃ i h, (op = Op.destroy i ∨ (∃ p, op = Op.reset i p) ∨ ∃ s, op = Op.moveAssign i s) ∧
      w.held i = some h ∧ h ≠ NULL ∧ w1.held i ≠ some h ∧
      w1.env = ⟨w.env.deleted ++ [h]⟩ := by
  cases op with
  | construct v =>
      simp only [stepW, step, Option.map_some', Option.some.injEq] at hS
      subst hS
      exact Or.inl rfl
  | constructDefault =>
      simp only [stepW, step, Option.map_some', Option.some.injEq] at hS
      subst hS
      exact Or.inl rfl
  | moveConstruct s =>
      cases h : w.obj s with
      | none => simp [stepW, step, h] at hS
      | some a =>
          rw [stepW_moveConstruct h, Option.some.injEq] at hS
          subst hS
          exact Or.inl rfl
  | moveAssign dst s =>
      cases h : w.obj s with
      | none => simp [stepW, step, h] at hS
      | some a =>
          cases hb : (World.mk (w.objs.set s (some ⟨NULL⟩)) w.env).obj dst with
          | none => simp [stepW, step, h, ScopedGlobalRef.release, hb] at hS
          | some b =>
              rw [stepW_moveAssign h hb, Option.some.injEq] at hS
              subst hS
              obtain ⟨hb0⟩ := b
              rcases reset_cases hb0 a.mGlobalRef w.env with hr | ⟨h0, hp, hr⟩
              · exact Or.inl hr
              · right
                have hds : s ≠ dst := by
                  intro hsd
                  subst hsd
                  rw [obj_set_self _ _ _ _ (obj_lt h)] at hb
                  have : NULL = hb0 := by simpa using hb
                  exact h0 this.symm
                rw [obj_set_ne _ _ w.env s dst _ hds] at hb
                refine ⟨dst, hb0, Or.inr (Or.inr ⟨s, rfl⟩), held_eq_some.mpr hb, h0, ?_, hr⟩
                have hlt : dst < (w.objs.set s (some (ScopedGlobalRef.mk NULL))).length := by
                  rw [List.length_set]; exact obj_lt hb
                rw [held_eq_some.mpr (obj_set_self _ _ _ _ hlt)]
                intro he
                exact hp (by simpa using he)
  | reset i p =>
      cases h : w.obj i with
      | none => simp [stepW, step, h] at hS
      | some a =>
          rw [stepW_reset p h, Option.some.injEq] at hS
          subst hS
          obtain ⟨ha⟩ := a
          rcases reset_cases ha p w.env with hr | ⟨h0, hp, hr⟩
          · exact Or.inl hr
          · right
            refine ⟨i, ha, Or.inr (Or.inl ⟨p, rfl⟩), held_eq_some.mpr h, h0, ?_, hr⟩
            rw [held_eq_some.mpr (obj_set_self _ _ _ _ (obj_lt h))]
            intro he
            exact hp (by simpa using he)
  | release i =>
      cases h : w.obj i with
      | none => simp [stepW, step, h] at hS
      | some a =>
          rw [stepW_release h, Option.some.injEq] at hS
          subst hS
          exact Or.inl rfl
  | get i =>
      cases h : w.obj i with
      | none => simp [stepW, step, h] at hS
      | some a =>
          simp only [stepW, step, h, Option.map_some', Option.some.injEq] at hS
          subst hS
          exact Or.inl rfl
  | toBool i =>
      cases h : w.obj i with
      | none => simp [stepW, step, h] at hS
      | some a =>
          simp only [stepW, step, h, Option.map_some', Option.some.injEq] at hS
          subst hS
          exact Or.inl rfl
  | destroy i =>
      cases h : w.obj i with
      | none => simp [stepW, step, h] at hS
      | some a =>
          rw [stepW_destroy h, Option.some.injEq] at hS
          subst hS
          obtain ⟨ha⟩ := a
          rcases destroy_cases ha w.env with hr | ⟨h0, hr⟩
          · exact Or.inl hr
          · right
            refine ⟨i, ha, Or.inl rfl, held_eq_some.mpr h, h0, ?_, hr⟩
            have : (World.mk (w.objs.set i none) ((ScopedGlobalRef.mk ha).destroy w.env)).held i
                = none := by
              unfold World.held
              rw [obj_set_self _ _ _ _ (obj_lt h)]
              rfl
            rw [this]
            simp

theorem runOps_deleted_nonnull (ops : List Op) (w w1 : World)
    (h0 : ∀ r ∈ w.env.deleted, r ≠ NULL) (hR : runOps ops w = some w1) :
    ∀ r ∈ w1.env.deleted, r ≠ NULL := by
  induction ops generalizing w with
  | nil =>
      simp only [runOps, Option.some.injEq] at hR
      subst hR
      exact h0
  | cons op ops ih =>
      cases hs : stepW op w with
      | none => simp [runOps, hs] at hR
      | some w2 =>
          simp only [runOps, hs, Option.some_bind] at hR
          refine ih w2 ?_ hR
          rcases step_deletes_held op w w2 hs with he | ⟨i, h, _, _, hn, _, he⟩
          · rw [he]; exact h0
          · rw [he]
            intro r hr
            rcases List.mem_append.mp hr with hr | hr
            · exact h0 r hr
            · rw [List.mem_singleton.mp hr]; exact hn

theorem run_deleted_nonnull (cs : List Call) (st : St)
    (h0 : ∀ r ∈ st.2.deleted, r ≠ NULL) : ∀ r ∈ (run cs st).2.deleted, r ≠ NULL := by
  induction cs generalizing st with
  | nil => exact h0
  | cons c cs ih =>
      obtain ⟨⟨h⟩, env⟩ := st
      refine ih _ ?_
      rcases exec_cases c h env with he | ⟨hn, _, he⟩
      · rw [he]; exact h0
      · rw [he]
        intro r hr
        rcases List.mem_append.mp hr with hr | hr
        · exact h0 r hr
        · rw [List.mem_singleton.mp hr]; exact hn

/-- C14: `DeleteGlobalRef` is never handed `NULL`, and only ever the reference
held just before.
(1) A member call on a wrapper holding `h` either leaves the record of
deletion calls unchanged or appends exactly `h`, and then `h` is not `NULL`
and differs from what the wrapper holds afterwards; destruction either leaves
the record unchanged or appends exactly the non-`NULL` `h`.
(2) In a program over several wrappers, an operation either leaves the record
unchanged or is a destruction, `reset` or move assignment (from any source)
on a wrapper `i` that held a non-`NULL` `h` before the operation and does not
hold `h` after it, and the record grows by exactly `h`.
(3) Every reference in the record at the end of a lifetime, and after any
program started from the empty state, is not `NULL`. -/
theorem never_deletes_null :
    (∀ (c : Call) (h : jobject) (env : JNIEnv),
      ((c.exec (⟨h⟩, env)).1.2 = env ∨
        (h ≠ NULL ∧ (c.exec (⟨h⟩, env)).1.1.mGlobalRef ≠ h ∧
          (c.exec (⟨h⟩, env)).1.2 = ⟨env.deleted ++ [h]⟩)) ∧
      ((ScopedGlobalRef.mk h).destroy env = env ∨
        (h ≠ NULL ∧ (ScopedGlobalRef.mk h).destroy env = ⟨env.deleted ++ [h]⟩))) ∧
    (∀ (op : Op) (w w1 : World), stepW op w = some w1 →
      (w1.env = w.env ∨
        ∃ i h, (op = Op.destroy i ∨ (∃ p, op = Op.reset i p) ∨ ∃ s, op = Op.moveAssign i s) ∧
          w.held i = some h ∧ h ≠ NULL ∧ w1.held i ≠ some h ∧
          w1.env = ⟨w.env.deleted ++ [h]⟩)) ∧
    (∀ (init : jobject) (calls : List Call), ∀ r ∈ (lifetime init calls).deleted, r ≠ NULL) ∧
    (∀ (ops : List Op) (w : World), runOps ops World.init = some w →
      ∀ r ∈ w.env.deleted, r ≠ NULL) := by
  refine ⟨fun c h env => ⟨exec_cases c h env, destroy_cases h env⟩, step_deletes_held, ?_, ?_⟩
  · intro init calls r hr
    have hrun := run_deleted_nonnull calls (ScopedGlobalRef.construct init, ⟨[]⟩)
      (by intro r hr; simp at hr)
    unfold lifetime at hr
    generalize run calls (ScopedGlobalRef.construct init, ⟨[]⟩) = st at hrun hr
    obtain ⟨⟨h⟩, env⟩ := st
    simp only at hrun hr
    rcases destroy_cases h env with he | ⟨hn, he⟩
    · rw [he] at hr; exact hrun r hr
    · rw [he] at hr
      rcases List.mem_append.mp hr with hr | hr
      · exact hrun r hr
      · rw [List.mem_singleton.mp hr]; exact hn
  · intro ops w hR
    exact runOps_deleted_nonnull ops World.init w (by intro r hr; simp [World.init] at hr) hR

/-! ## No leak and no double release -/

theorem count_destroy (h v : jobject) (env : JNIEnv) (hv : v ≠ NULL) :
    ((ScopedGlobalRef.mk h).destroy env).deleted.count v
      = env.deleted.count v + (if v = h then 1 else 0) := by
  rcases destroy_cases h env with he | ⟨_, he⟩
  · rw [he]
    by_cases hvh : v = h
    · subst hvh
      have hnull : v = NULL := by
        by_contra hne
        have := congrArg (fun e => e.deleted.length) (destroy_nonnull v env hne)
        rw [he] at this
        simp at this
      exact absurd hnull hv
    · simp [hvh]
  · rw [he]
    by_cases hvh : v = h
    · subst hvh; simp
    · have : h ≠ v := fun e => hvh e.symm
      simp [hvh, List.count_singleton, this]

/-- Bookkeeping of one lifetime from any state: every non-`NULL` reference is
deleted or released as often as it was already deleted, is held now, or is
handed to a later `reset`. -/
theorem lifetime_balance (cs : List Call) (h : jobject) (env : JNIEnv) (v : jobject)
    (hv : v ≠ NULL)
    (hnd : ((resetArgs cs).filter (fun r => r != NULL)).Nodup)
    (hh : h = NULL ∨ h ∉ resetArgs cs) :
    ((run cs (⟨h⟩, env)).1.destroy (run cs (⟨h⟩, env)).2).deleted.count v
        + (released cs (⟨h⟩, env)).count v
      = env.deleted.count v + (if v = h then 1 else 0) + (resetArgs cs).count v := by
  induction cs generalizing h env with
  | nil =>
      simp only [run, released, resetArgs, List.count_nil, Nat.add_zero]
      exact count_destroy h v env hv
  | cons c cs ih =>
      cases c with
      | reset p =>
          simp only [run, released, resetArgs, Call.exec] at hnd hh ⊢
          have hnd1 : ((resetArgs cs).filter (fun r => r != NULL)).Nodup := by
            by_cases hp0 : p = NULL
            · simpa [List.filter_cons, hp0] using hnd
            · have : (p != NULL) = true := by simpa using hp0
              rw [List.filter_cons, if_pos this] at hnd
              exact (List.nodup_cons.mp hnd).2
          have hp1 : p = NULL ∨ p ∉ resetArgs cs := by
            by_cases hp0 : p = NULL
            · exact Or.inl hp0
            · right
              have : (p != NULL) = true := by simpa using hp0
              rw [List.filter_cons, if_pos this] at hnd
              intro hmem
              exact (List.nodup_cons.mp hnd).1 (List.mem_filter.mpr ⟨hmem, this⟩)
          by_cases hph : p = h
          · subst hph
            have hp0 : p = NULL := by
              rcases hh with hh | hh
              · exact hh
              · exact absurd (List.mem_cons_self _ _) hh
            rw [reset_same]
            have hvp : v ≠ p := by rw [hp0]; exact hv
            have hpv : p ≠ v := fun e => hvp e.symm
            rw [ih p env hnd1 hp1]
            simp [List.count_cons, hpv]
          · by_cases h0 : h = NULL
            · subst h0
              rw [reset_of_null, ih p env hnd1 hp1]
              by_cases hvp : v = p
              · subst hvp
                simp [hv]
                omega
              · have hpv : p ≠ v := fun e => hvp e.symm
                simp [List.count_cons, hvp, hpv, hv]
            · rw [reset_other h p env hph h0, ih p ⟨env.deleted ++ [h]⟩ hnd1 hp1]
              have e1 : List.count v (env.deleted ++ [h])
                  = List.count v env.deleted + (if v = h then 1 else 0) := by
                by_cases hvh : v = h
                · subst hvh; simp
                · have : h ≠ v := fun e => hvh e.symm
                  simp [hvh, List.count_singleton, this]
              have e2 : List.count v (p :: resetArgs cs)
                  = List.count v (resetArgs cs) + (if v = p then 1 else 0) := by
                by_cases hvp : v = p
                · subst hvp; simp
                · have : p ≠ v := fun e => hvp e.symm
                  simp [List.count_cons, hvp, this]
              simp only [e1, e2]
              omega
      | release =>
          simp only [run, released, resetArgs, Call.exec, ScopedGlobalRef.release] at hnd hh ⊢
          rw [List.count_cons]
          have := ih NULL env hnd (Or.inl rfl)
          have hv0 : (if v = NULL then 1 else 0) = 0 := by simp [hv]
          rw [hv0] at this
          have e3 : (if (h == v) = true then 1 else 0) = (if v = h then 1 else 0) := by
            by_cases hvh : v = h
            · subst hvh; simp
            · have : h ≠ v := fun e => hvh e.symm
              simp [hvh, this]
          rw [e3]
          omega
      | get =>
          simp only [run, released, resetArgs, Call.exec] at hnd hh ⊢
          exact ih h env hnd hh
      | toBool =>
          simp only [run, released, resetArgs, Call.exec] at hnd hh ⊢
          exact ih h env hnd hh

/-- C15: take a lifetime of one wrapper (construction from `init`, any finite
sequence of member calls, destruction) in which the non-`NULL` references
handed over by the constructor and by the `reset` calls are pairwise
distinct.  Then each of these references is either handed to
`DeleteGlobalRef` exactly once and never returned by `release()`, or returned
by `release()` exactly once and never handed to `DeleteGlobalRef`. -/
theorem no_leak_no_double_release (init : jobject) (calls : List Call)
    (hD : (supplied init calls).Nodup) (v : jobject) (hv : v ∈ supplied init calls) :
    ((lifetime init calls).deleted.count v = 1 ∧
      (released calls (ScopedGlobalRef.construct init, ⟨[]⟩)).count v = 0) ∨
    ((lifetime init calls).deleted.count v = 0 ∧
      (released calls (ScopedGlobalRef.construct init, ⟨[]⟩)).count v = 1) := by
  have hvb : (v != NULL) = true := (List.mem_filter.mp hv).2
  have hv0 : v ≠ NULL := by simpa using hvb
  have hone : (supplied init calls).count v = 1 := List.count_eq_one_of_mem hD hv
  have hcount : (init :: resetArgs calls).count v = 1 := by
    unfold supplied at hone
    rwa [List.count_filter (p := fun r => r != NULL) (a := v) hvb] at hone
  have hnd : ((resetArgs calls).filter (fun r => r != NULL)).Nodup := by
    unfold supplied at hD
    by_cases hi0 : (init != NULL) = true
    · rw [List.filter_cons, if_pos hi0] at hD
      exact (List.nodup_cons.mp hD).2
    · rw [List.filter_cons, if_neg hi0] at hD
      exact hD
  have hh : init = NULL ∨ init ∉ resetArgs calls := by
    by_cases hi0 : init = NULL
    · exact Or.inl hi0
    · right
      have hib : (init != NULL) = true := by simpa using hi0
      unfold supplied at hD
      rw [List.filter_cons, if_pos hib] at hD
      intro hmem
      exact (List.nodup_cons.mp hD).1 (List.mem_filter.mpr ⟨hmem, hib⟩)
  have hbal := lifetime_balance calls init ⟨[]⟩ v hv0 hnd hh
  have e2 : List.count v (init :: resetArgs calls)
      = List.count v (resetArgs calls) + (if v = init then 1 else 0) := by
    by_cases hvi : v = init
    · subst hvi; simp
    · have : init ≠ v := fun e => hvi e.symm
      simp [List.count_cons, hvi, this]
  rw [e2] at hcount
  simp only [List.count_nil, Nat.zero_add] at hbal
  have hsum : (lifetime init calls).deleted.count v
      + (released calls (ScopedGlobalRef.construct init, ⟨[]⟩)).count v = 1 := by
    unfold lifetime ScopedGlobalRef.construct
    simp only
    omega
  omega

/-- Witness for `no_leak_no_double_release`: construct with `1`, `reset(2)`,
`release()`, `reset()`, `reset(3)`, destruction; the reference `2` is released
and never deleted. -/
theorem no_leak_no_double_release_witness :
    ((supplied 1 [Call.reset 2, Call.release, Call.reset NULL, Call.reset 3]).Nodup ∧
      (2 : jobject) ∈ supplied 1 [Call.reset 2, Call.release, Call.reset NULL, Call.reset 3]) ∧
    (((lifetime 1 [Call.reset 2, Call.release, Call.reset NULL, Call.reset 3]).deleted.count 2
        = 1 ∧
      (released [Call.reset 2, Call.release, Call.reset NULL, Call.reset 3]
        (ScopedGlobalRef.construct 1, ⟨[]⟩)).count 2 = 0) ∨
    ((lifetime 1 [Call.reset 2, Call.release, Call.reset NULL, Call.reset 3]).deleted.count 2
        = 0 ∧
      (released [Call.reset 2, Call.release, Call.reset NULL, Call.reset 3]
        (ScopedGlobalRef.construct 1, ⟨[]⟩)).count 2 = 1)) :=
  ⟨⟨by decide, by decide⟩,
    no_leak_no_double_release 1 [Call.reset 2, Call.release, Call.reset NULL, Call.reset 3]
      (by decide) 2 (by decide)⟩

end ScopedRef
